import Mathlib

set_option maxRecDepth 8000

/-!
Verification of the rate-resolver core of `exchange_rates.py`
(`get_exchange_rates`, lines 104-145).

Modelling conventions:
* Calendar dates are day numbers (`Int`): the code only uses dates through
  `abs((row.Date - on_date).days)`, so the strptime round-trip is abstracted
  to an integer day number; the raw date string is kept as `dateStr` because
  the code stores it back into the row under the `Date_Str` key.
* A CSV row is a `Row`: its parsed date, its raw date string, and the
  remaining columns as an association list from currency code to the raw
  decimal string (DictReader yields unique keys, in header order).
* Python floats are modelled as rationals together with an explicit
  round-to-nearest-even to 53 significant bits (`roundDouble`), applied where
  the code calls `float(...)` on a string and after every float division,
  so double rounding is represented exactly for values in the normal range
  (no NaN/infinity/subnormals, which the data never produces).
* Exceptions are the explicit `Except PyErr` monad: `ValueError` (with the
  offending string), `KeyError` (with the key), `TypeError` (from
  `float(date-object)`), `ZeroDivisionError`, and the `RuntimeError` raised
  at line 145 carrying the values interpolated into its message.
* The network fetch / cache layers (lines 78-100) are external collaborators
  per the spec; the resolver takes the parsed table as an argument.
-/

deriving instance DecidableEq for Except

namespace ExchangeRates

/-- Exact division of rationals, written through `Rat.divInt` so that it
evaluates by reduction (`Rat.inv` is irreducible); agrees with `a / b`,
see `ratDiv_eq_div`. -/
def ratDiv (a b : ℚ) : ℚ := Rat.divInt (a.num * (b.den : ℤ)) (b.num * (a.den : ℤ))

/-- One parsed CSV row: the parsed `Date` column (as a day number), the raw
date string, and the currency columns in header order. -/
structure Row where
  dateStr : String
  date : Int
  rates : List (String × String)
deriving DecidableEq, Repr

/-- `sys.maxsize` on a 64-bit CPython, the sentinel distance at line 104. -/
def maxsize : Int := 9223372036854775807

/-- `abs((row.Date - on_date).days)`, line 109. -/
def distOf (onDate : Int) (r : Row) : Int := |r.date - onDate|

/-- The scan of lines 105-118: walk the table keeping the best row and its
distance, short-circuiting (`break`) on an exact date match, replacing the
best candidate only on a strictly smaller distance. The accumulator `none`
models the sentinel dict of line 104. -/
def findBestAux (onDate : Int) : List Row → Option Row → Int → Option Row × Int
  | [], b, bd => (b, bd)
  | r :: rs, b, bd =>
    if r.date = onDate then (some r, distOf onDate r)
    else if distOf onDate r < bd then findBestAux onDate rs (some r) (distOf onDate r)
    else findBestAux onDate rs b bd

/-- Lines 104-118: the best row (none when the sentinel survives) and the
value of its `Within_Days` entry. -/
def findBest (table : List Row) (onDate : Int) : Option Row × Int :=
  findBestAux onDate table none maxsize

/-- A value stored in the (heterogeneous) row dict after the loop's
mutations: raw strings, the injected float, the parsed date object, and the
integer distance. -/
inductive CellVal
  | vstr (s : String)
  | vfloat (q : ℚ)
  | vdate (d : Int)
  | vint (n : Int)
deriving DecidableEq, Repr

/-- The Python exceptions the resolver can raise. -/
inductive PyErr
  | valueError (val : String)
  | keyError (key : String)
  | typeError
  | zeroDivisionError
  | runtimeError (base : String) (onDate : Int) (withinDays : Int)
deriving DecidableEq, Repr

/-- The two exception classes caught at lines 133 and 137 (the spec's
`RateConversionError`). -/
def isConvErr : PyErr → Bool
  | .valueError _ => true
  | .keyError _ => true
  | _ => false

/-- Value of a digit string read in base 10. -/
def natOfDigits (cs : List Char) : ℕ :=
  cs.foldl (fun a c => 10 * a + (c.toNat - 48)) 0

/-- Split a character list at the first dot, if any. -/
def splitDot : List Char → List Char × Option (List Char)
  | [] => ([], none)
  | c :: t =>
    if c = '.' then ([], some t)
    else
      let p := splitDot t
      (c :: p.1, p.2)

/-- Python `float(s)` on the plain decimal strings the ECB table carries:
optional sign, digits with at most one dot, at least one digit; anything
else (for example the `N/A` missing-data marker) raises `ValueError`.
Returns the exact rational the literal denotes, before binary64 rounding. -/
def parseFloat (s : String) : Option ℚ :=
  let p0 : Bool × List Char :=
    match s.data with
    | '-' :: t => (true, t)
    | '+' :: t => (false, t)
    | cs => (false, cs)
  let ip := (splitDot p0.2).1
  let fp := ((splitDot p0.2).2).getD []
  if (ip ++ fp).all Char.isDigit ∧ ip ++ fp ≠ [] then
    let mag : ℚ := Rat.divInt (natOfDigits (ip ++ fp) : ℤ) ((10 : ℤ) ^ fp.length)
    some (if p0.1 then -mag else mag)
  else none

/-- Fuel-driven floor of log base 2 (structural recursion so the kernel can
evaluate it). -/
def log2F : ℕ → ℕ → ℕ
  | 0, _ => 0
  | f + 1, n => if n ≥ 2 then log2F f (n / 2) + 1 else 0

/-- Scaling exponent used to locate the binary point of a rational. -/
def SCALE : ℕ := 120

/-- Fuel for `log2F`, enough for all magnitudes the claims touch. -/
def FUEL : ℕ := 400

/-- Round the positive rational `n / d` to the nearest binary64 value
(round half to even), returned as the exact rational it denotes. Valid for
values in the normal range reachable from the data. -/
def roundPosRat (n d : ℕ) : ℚ :=
  let e : ℤ := (log2F FUEL (n * 2 ^ SCALE / d) : ℤ) - SCALE
  let shift : ℤ := e - 52
  let nn : ℕ := if 0 ≤ shift then n else n * 2 ^ (-shift).toNat
  let dd : ℕ := if 0 ≤ shift then d * 2 ^ shift.toNat else d
  let m0 := nn / dd
  let r := nn % dd
  let m := if 2 * r < dd then m0
           else if dd < 2 * r then m0 + 1
           else if m0 % 2 = 0 then m0 else m0 + 1
  if 0 ≤ shift then (m : ℚ) * (2 : ℚ) ^ shift.toNat
  else Rat.divInt (m : ℤ) ((2 : ℤ) ^ (-shift).toNat)

/-- Correct rounding of a rational to binary64, as an exact rational. -/
def roundDouble (q : ℚ) : ℚ :=
  if q = 0 then 0
  else if 0 < q then roundPosRat q.num.toNat q.den
  else -roundPosRat (-q.num).toNat q.den

/-- Python float division (correctly rounded; the zero-divisor case is
handled by the caller, mirroring `ZeroDivisionError`). -/
def fdiv (a b : ℚ) : ℚ := roundDouble (ratDiv a b)

/-- `best_row[key]` after the loop mutations (lines 107-109) and the
reference-currency injection `best_row['EUR'] = 1.0` (line 129, which
overwrites any explicit `EUR` column). When the sentinel survived
(`bo = none`) the dict holds only `Within_Days` plus the injected `EUR`. -/
def getItem (bo : Option Row) (bd : Int) (key : String) : Option CellVal :=
  if key = "EUR" then some (.vfloat 1)
  else
    match bo with
    | some r =>
      if key = "Date" then some (.vdate r.date)
      else if key = "Date_Str" then some (.vstr r.dateStr)
      else if key = "Within_Days" then some (.vint bd)
      else (r.rates.lookup key).map .vstr
    | none =>
      if key = "Within_Days" then some (.vint bd) else none

/-- Python `float(...)` applied to a dict value: strings are parsed then
rounded to binary64, floats pass through, date objects raise `TypeError`,
ints convert exactly. -/
def pyFloat : CellVal → Except PyErr ℚ
  | .vstr s =>
    match parseFloat s with
    | some q => .ok (roundDouble q)
    | none => .error (.valueError s)
  | .vfloat q => .ok q
  | .vdate _ => .error .typeError
  | .vint n => .ok (n : ℚ)

/-- `float(best_row[cur])` alone (the numerator of line 132, evaluated
first). -/
def numOf (bo : Option Row) (bd : Int) (cur : String) : Except PyErr ℚ :=
  match getItem bo bd cur with
  | none => .error (.keyError cur)
  | some v => pyFloat v

/-- One iteration body of line 132:
`float(best_row[cur]) / float(best_row[base_currency])`, with Python's
left-to-right evaluation and `ZeroDivisionError` on a zero denominator. -/
def rateOf (bo : Option Row) (bd : Int) (base cur : String) : Except PyErr ℚ :=
  match numOf bo bd cur with
  | .error e => .error e
  | .ok num =>
    match numOf bo bd base with
    | .error e => .error e
    | .ok den => if den = 0 then .error .zeroDivisionError else .ok (fdiv num den)

/-- `ret[cur] = v`: Python dict assignment (update in place, else append). -/
def dictInsert (m : List (String × ℚ)) (k : String) (v : ℚ) : List (String × ℚ) :=
  match m with
  | [] => [(k, v)]
  | (k1, v1) :: t => if k1 = k then (k1, v) :: t else (k1, v1) :: dictInsert t k v

/-- The loop of lines 130-141: per-currency derivation; `ValueError` and
`KeyError` are swallowed when `coe` (`continue_on_error`) is true and
re-raised otherwise; any other exception propagates unconditionally. -/
def deriveLoop (bo : Option Row) (bd : Int) (base : String) (coe : Bool) :
    List String → List (String × ℚ) → Except PyErr (List (String × ℚ))
  | [], acc => .ok acc
  | cur :: rest, acc =>
    match rateOf bo bd base cur with
    | .ok q => deriveLoop bo bd base coe rest (dictInsert acc cur q)
    | .error e =>
      if isConvErr e then
        if coe then deriveLoop bo bd base coe rest acc else .error e
      else .error e

/-- `set(best_row.keys()) - set(['Date', 'Date_Str', 'Within_Days'])`
(line 123): the matched row's currency columns. -/
def keysOfRow (r : Row) : List String :=
  (r.rates.map Prod.fst).filter
    (fun k => !(k == "Date" || k == "Date_Str" || k == "Within_Days"))

/-- Lines 121-123: the effective target list; for the sentinel dict the key
set minus the bookkeeping keys is empty. -/
def resolveTargets (bo : Option Row) (tcs : Option (List String)) : List String :=
  match tcs with
  | some ts => ts
  | none =>
    match bo with
    | some r => keysOfRow r
    | none => []

/-- Lines 121-142 after a successful acceptance test: target resolution,
reference-currency injection (inside `getItem`) and the derivation loop. -/
def postMatch (bo : Option Row) (bd : Int) (base : String)
    (tcs : Option (List String)) (coe : Bool) : Except PyErr (List (String × ℚ)) :=
  deriveLoop bo bd base coe (resolveTargets bo tcs) []

/-- The resolver core of `get_exchange_rates` (lines 104-145): scan,
acceptance test `best_row['Within_Days'] < within_days`, derivation, and
the `RuntimeError` of line 145 otherwise. -/
def get_exchange_rates (table : List Row) (base : String)
    (tcs : Option (List String)) (onDate : Int) (withinDays : Int) (coe : Bool) :
    Except PyErr (List (String × ℚ)) :=
  let p := findBest table onDate
  if p.2 < withinDays then postMatch p.1 p.2 base tcs coe
  else .error (.runtimeError base onDate withinDays)

end ExchangeRates

namespace ExchangeRates

/-! ### Basic facts about distances and the running minimum -/

theorem distOf_nonneg (onDate : Int) (r : Row) : 0 ≤ distOf onDate r :=
  abs_nonneg _

theorem distOf_pos {onDate : Int} {r : Row} (h : r.date ≠ onDate) :
    0 < distOf onDate r :=
  abs_pos.mpr (sub_ne_zero.mpr h)

theorem distOf_eq_zero {onDate : Int} {r : Row} (h : r.date = onDate) :
    distOf onDate r = 0 := by
  simp [distOf, h]

theorem foldl_min_le_init : ∀ (l : List Int) (a : Int), l.foldl min a ≤ a
  | [], _ => le_refl _
  | x :: xs, a => le_trans (foldl_min_le_init xs (min a x)) (min_le_left a x)

theorem foldl_min_le_mem :
    ∀ (l : List Int) (a x : Int), x ∈ l → l.foldl min a ≤ x := by
  intro l
  induction l with
  | nil => intro a x hx; cases hx
  | cons y ys ih =>
    intro a x hx
    rcases List.mem_cons.mp hx with h | h
    · subst h
      exact le_trans (foldl_min_le_init ys (min a x)) (min_le_right a x)
    · exact ih (min a y) x h

theorem le_foldl_min :
    ∀ (l : List Int) (a c : Int), c ≤ a → (∀ x ∈ l, c ≤ x) → c ≤ l.foldl min a := by
  intro l
  induction l with
  | nil => intro a c h _; exact h
  | cons y ys ih =>
    intro a c h hl
    exact ih (min a y) c (le_min h (hl y (List.mem_cons_self y ys))) fun x hx =>
      hl x (List.mem_cons_of_mem _ hx)

/-! ### The scan computes the clamped minimal distance -/

theorem findBestAux_snd (onDate : Int) :
    ∀ (rows : List Row) (b : Option Row) (bd : Int), 0 ≤ bd →
      (findBestAux onDate rows b bd).2 = (rows.map (distOf onDate)).foldl min bd := by
  intro rows
  induction rows with
  | nil => intro b bd _; rfl
  | cons r rs ih =>
    intro b bd hbd
    simp only [findBestAux, List.map_cons, List.foldl_cons]
    by_cases h : r.date = onDate
    · rw [if_pos h, distOf_eq_zero h, min_eq_right hbd]
      refine (le_antisymm (foldl_min_le_init _ _) (le_foldl_min _ _ _ (le_refl 0) ?_)).symm
      intro x hx
      obtain ⟨r2, _, rfl⟩ := List.mem_map.mp hx
      exact distOf_nonneg _ _
    · rw [if_neg h]
      by_cases h2 : distOf onDate r < bd
      · rw [if_pos h2, ih (some r) (distOf onDate r) (distOf_nonneg _ _),
          min_eq_right (le_of_lt h2)]
      · rw [if_neg h2, ih b bd hbd, min_eq_left (le_of_not_lt h2)]

theorem findBest_snd (table : List Row) (onDate : Int) :
    (findBest table onDate).2 = (table.map (distOf onDate)).foldl min maxsize :=
  findBestAux_snd onDate table none maxsize (by decide)

theorem findBest_snd_le (table : List Row) (onDate : Int) :
    ∀ r ∈ table, (findBest table onDate).2 ≤ distOf onDate r := by
  intro r hr
  rw [findBest_snd]
  exact foldl_min_le_mem _ _ _ (List.mem_map.mpr ⟨r, hr, rfl⟩)

theorem findBest_snd_nonneg (table : List Row) (onDate : Int) :
    0 ≤ (findBest table onDate).2 := by
  rw [findBest_snd]
  refine le_foldl_min _ _ _ (by decide) ?_
  intro x hx
  obtain ⟨r2, _, rfl⟩ := List.mem_map.mp hx
  exact distOf_nonneg _ _

/-! ### The scan picks the first row attaining the final distance -/

theorem findBestAux_fst (onDate : Int) :
    ∀ (rows : List Row) (b : Option Row) (bd : Int), 0 < bd →
      (findBestAux onDate rows b bd).1 =
        if (findBestAux onDate rows b bd).2 < bd
        then rows.find? (fun r => distOf onDate r == (findBestAux onDate rows b bd).2)
        else b := by
  intro rows
  induction rows with
  | nil =>
    intro b bd hbd
    simp [findBestAux]
  | cons r rs ih =>
    intro b bd hbd
    by_cases h : r.date = onDate
    · have hd0 := distOf_eq_zero h
      simp only [findBestAux, if_pos h, hd0]
      rw [if_pos hbd, List.find?_cons_of_pos _ (by simp [hd0])]
    · by_cases h2 : distOf onDate r < bd
      · simp only [findBestAux, if_neg h, if_pos h2]
        have hdpos : 0 < distOf onDate r := distOf_pos h
        have hs2le : (findBestAux onDate rs (some r) (distOf onDate r)).2 ≤
            distOf onDate r := by
          rw [findBestAux_snd onDate rs (some r) _ (le_of_lt hdpos)]
          exact foldl_min_le_init _ _
        have hs2bd : (findBestAux onDate rs (some r) (distOf onDate r)).2 < bd :=
          lt_of_le_of_lt hs2le h2
        rw [if_pos hs2bd]
        by_cases h3 : (findBestAux onDate rs (some r) (distOf onDate r)).2 <
            distOf onDate r
        · rw [List.find?_cons_of_neg _
            (by simp only [beq_iff_eq]; exact fun hh => absurd hh (ne_of_gt h3))]
          rw [ih (some r) (distOf onDate r) hdpos, if_pos h3]
        · have h3e : (findBestAux onDate rs (some r) (distOf onDate r)).2 =
              distOf onDate r := le_antisymm hs2le (le_of_not_lt h3)
          rw [List.find?_cons_of_pos _ (by simp [h3e]),
            ih (some r) (distOf onDate r) hdpos, if_neg h3]
      · simp only [findBestAux, if_neg h, if_neg h2]
        by_cases h3 : (findBestAux onDate rs b bd).2 < bd
        · rw [if_pos h3]
          have hne : distOf onDate r ≠ (findBestAux onDate rs b bd).2 :=
            ne_of_gt (lt_of_lt_of_le h3 (le_of_not_lt h2))
          rw [List.find?_cons_of_neg _ (by simp only [beq_iff_eq]; exact hne),
            ih b bd hbd, if_pos h3]
        · rw [if_neg h3, ih b bd hbd, if_neg h3]

theorem findBestAux_exact (onDate : Int) :
    ∀ (rows : List Row) (b : Option Row) (bd : Int) (r : Row), 0 < bd →
      rows.find? (fun x => x.date == onDate) = some r →
      findBestAux onDate rows b bd = (some r, 0) := by
  intro rows
  induction rows with
  | nil =>
    intro b bd r _ hf
    simp at hf
  | cons r0 rs ih =>
    intro b bd r hbd hf
    by_cases h : r0.date = onDate
    · rw [List.find?_cons_of_pos _ (by simp [h])] at hf
      obtain rfl : r0 = r := by injection hf
      simp [findBestAux, if_pos h, distOf_eq_zero h]
    · rw [List.find?_cons_of_neg _ (by simp [h])] at hf
      simp only [findBestAux, if_neg h]
      by_cases h2 : distOf onDate r0 < bd
      · rw [if_pos h2]
        exact ih _ _ r (distOf_pos h) hf
      · rw [if_neg h2]
        exact ih _ _ r hbd hf

theorem findBestAux_mem (onDate : Int) :
    ∀ (rows : List Row) (b : Option Row) (bd : Int) (r : Row),
      (findBestAux onDate rows b bd).1 = some r → b = some r ∨ r ∈ rows := by
  intro rows
  induction rows with
  | nil =>
    intro b bd r hr
    exact Or.inl hr
  | cons r0 rs ih =>
    intro b bd r hr
    by_cases h : r0.date = onDate
    · simp only [findBestAux, if_pos h] at hr
      exact Or.inr (by rw [← Option.some_inj.mp hr]; exact List.mem_cons_self r0 rs)
    · by_cases h2 : distOf onDate r0 < bd
      · simp only [findBestAux, if_neg h, if_pos h2] at hr
        rcases ih (some r0) (distOf onDate r0) r hr with h3 | h3
        · exact Or.inr (by rw [← Option.some_inj.mp h3]; exact List.mem_cons_self r0 rs)
        · exact Or.inr (List.mem_cons_of_mem _ h3)
      · simp only [findBestAux, if_neg h, if_neg h2] at hr
        rcases ih b bd r hr with h3 | h3
        · exact Or.inl h3
        · exact Or.inr (List.mem_cons_of_mem _ h3)

/-! ### Exact division agrees with field division; self-division rounds to 1 -/

theorem ratDiv_eq_div (a b : ℚ) : ratDiv a b = a / b := by
  rw [ratDiv, Rat.divInt_eq_div]
  by_cases hb : b = 0
  · subst hb
    simp
  · have hbn : (b.num : ℚ) ≠ 0 := by
      exact_mod_cast Rat.num_ne_zero.mpr hb
    have had : (a.den : ℚ) ≠ 0 := Nat.cast_ne_zero.mpr a.den_nz
    push_cast
    rw [div_eq_div_iff (mul_ne_zero hbn had) hb]
    have hA2 : (a.num : ℚ) = a * a.den := (div_eq_iff had).mp (Rat.num_div_den a)
    have hbd : (b.den : ℚ) ≠ 0 := Nat.cast_ne_zero.mpr b.den_nz
    have hB2 : (b.num : ℚ) = b * b.den := (div_eq_iff hbd).mp (Rat.num_div_den b)
    rw [hA2, hB2]
    ring

theorem roundDouble_one : roundDouble 1 = 1 := by decide

theorem fdiv_self {x : ℚ} (hx : x ≠ 0) : fdiv x x = 1 := by
  rw [fdiv, ratDiv_eq_div, div_self hx, roundDouble_one]

/-! ### The derivation loop -/

/-- The keys of a result dict. -/
def keysR (m : List (String × ℚ)) : List String := m.map Prod.fst

/-- The net effect of one tolerant-mode loop iteration. -/
def stepFun (bo : Option Row) (bd : Int) (base : String)
    (m : List (String × ℚ)) (c : String) : List (String × ℚ) :=
  match rateOf bo bd base c with
  | .ok q => dictInsert m c q
  | .error _ => m

/-- The entry a single currency contributes when it resolves. -/
def toRateEntry (bo : Option Row) (bd : Int) (base : String) (c : String) :
    Option (String × ℚ) :=
  match rateOf bo bd base c with
  | .ok q => some (c, q)
  | .error _ => none

theorem pyFloat_ne_runtime (v : CellVal) (b : String) (o w : Int) :
    pyFloat v ≠ Except.error (.runtimeError b o w) := by
  cases v with
  | vstr s =>
    simp only [pyFloat]
    cases hp : parseFloat s
    · simp
    · simp
  | vfloat q => simp [pyFloat]
  | vdate d => simp [pyFloat]
  | vint n => simp [pyFloat]

theorem numOf_ne_runtime (bo : Option Row) (bd : Int) (cur : String)
    (b : String) (o w : Int) :
    numOf bo bd cur ≠ Except.error (.runtimeError b o w) := by
  simp only [numOf]
  cases hg : getItem bo bd cur
  · simp
  · exact pyFloat_ne_runtime _ _ _ _

theorem rateOf_ne_runtime (bo : Option Row) (bd : Int) (base cur : String)
    (b : String) (o w : Int) :
    rateOf bo bd base cur ≠ Except.error (.runtimeError b o w) := by
  simp only [rateOf]
  cases hn : numOf bo bd cur with
  | error e =>
    intro h
    injection h with h2
    exact numOf_ne_runtime bo bd cur b o w (h2 ▸ hn)
  | ok num =>
    cases hd : numOf bo bd base with
    | error e =>
      intro h
      injection h with h2
      exact numOf_ne_runtime bo bd base b o w (h2 ▸ hd)
    | ok den =>
      by_cases hz : den = 0
      · simp [hz]
      · simp [hz]

theorem deriveLoop_ne_runtime (bo : Option Row) (bd : Int) (base : String)
    (coe : Bool) (b : String) (o w : Int) :
    ∀ (ts : List String) (acc : List (String × ℚ)),
      deriveLoop bo bd base coe ts acc ≠ Except.error (.runtimeError b o w) := by
  intro ts
  induction ts with
  | nil =>
    intro acc
    simp [deriveLoop]
  | cons cur rest ih =>
    intro acc
    cases hr : rateOf bo bd base cur with
    | ok q =>
      simp only [deriveLoop, hr]
      exact ih _
    | error e =>
      simp only [deriveLoop, hr]
      by_cases hc : isConvErr e
      · rw [if_pos hc]
        cases coe
        · intro h
          injection h with h2
          exact rateOf_ne_runtime bo bd base cur b o w (h2 ▸ hr)
        · exact ih _
      · rw [if_neg hc]
        intro h
        injection h with h2
        exact rateOf_ne_runtime bo bd base cur b o w (h2 ▸ hr)

theorem deriveLoop_true_ok (bo : Option Row) (bd : Int) (base : String) :
    ∀ (ts : List String) (acc : List (String × ℚ)),
      (∀ c ∈ ts, ∀ e, rateOf bo bd base c = .error e → isConvErr e = true) →
      deriveLoop bo bd base true ts acc = .ok (ts.foldl (stepFun bo bd base) acc) := by
  intro ts
  induction ts with
  | nil =>
    intro acc _
    rfl
  | cons cur rest ih =>
    intro acc hc
    cases hr : rateOf bo bd base cur with
    | ok q =>
      simp only [deriveLoop, hr, List.foldl_cons, stepFun]
      exact ih _ fun c hm e he => hc c (List.mem_cons_of_mem _ hm) e he
    | error e =>
      have hce : isConvErr e = true := hc cur (List.mem_cons_self cur rest) e hr
      simp only [deriveLoop, hr, hce, if_true, List.foldl_cons, stepFun]
      exact ih _ fun c hm e2 he => hc c (List.mem_cons_of_mem _ hm) e2 he

theorem dictInsert_of_not_mem :
    ∀ (m : List (String × ℚ)) (k : String) (v : ℚ), k ∉ keysR m →
      dictInsert m k v = m ++ [(k, v)] := by
  intro m
  induction m with
  | nil =>
    intro k v _
    rfl
  | cons p t ih =>
    intro k v hk
    obtain ⟨k1, v1⟩ := p
    have h1 : k1 ≠ k := by
      intro hh
      exact hk (hh ▸ List.mem_cons_self k1 (keysR t))
    have h2 : k ∉ keysR t := fun hh => hk (List.mem_cons_of_mem _ hh)
    simp only [dictInsert, if_neg h1, List.cons_append]
    rw [ih k v h2]

theorem mem_keysR_dictInsert :
    ∀ (m : List (String × ℚ)) (k : String) (v : ℚ) (x : String),
      x ∈ keysR (dictInsert m k v) → x ∈ keysR m ∨ x = k := by
  intro m
  induction m with
  | nil =>
    intro k v x hx
    simp only [dictInsert, keysR, List.map_cons, List.map_nil] at hx
    exact Or.inr (List.mem_singleton.mp hx)
  | cons p t ih =>
    intro k v x hx
    obtain ⟨k1, v1⟩ := p
    by_cases h1 : k1 = k
    · simp only [dictInsert, if_pos h1, keysR, List.map_cons] at hx
      rcases List.mem_cons.mp hx with h | h
      · exact Or.inl (h ▸ List.mem_cons_self k1 _)
      · exact Or.inl (List.mem_cons_of_mem _ h)
    · simp only [dictInsert, if_neg h1, keysR, List.map_cons] at hx
      rcases List.mem_cons.mp hx with h | h
      · exact Or.inl (h ▸ List.mem_cons_self k1 _)
      · rcases ih k v x h with h2 | h2
        · exact Or.inl (List.mem_cons_of_mem _ h2)
        · exact Or.inr h2

theorem foldl_step_filterMap (bo : Option Row) (bd : Int) (base : String) :
    ∀ (ts : List String) (acc : List (String × ℚ)), ts.Nodup →
      (∀ c ∈ ts, c ∉ keysR acc) →
      ts.foldl (stepFun bo bd base) acc = acc ++ ts.filterMap (toRateEntry bo bd base) := by
  intro ts
  induction ts with
  | nil =>
    intro acc _ _
    simp
  | cons cur rest ih =>
    intro acc hnd hacc
    have hnd2 : rest.Nodup := (List.nodup_cons.mp hnd).2
    have hcur : cur ∉ rest := (List.nodup_cons.mp hnd).1
    cases hr : rateOf bo bd base cur with
    | ok q =>
      have hstep : stepFun bo bd base acc cur = acc ++ [(cur, q)] := by
        simp only [stepFun, hr]
        exact dictInsert_of_not_mem acc cur q (hacc cur (List.mem_cons_self cur rest))
      have hfresh : ∀ c ∈ rest, c ∉ keysR (acc ++ [(cur, q)]) := by
        intro c hm hcmem
        have : keysR (acc ++ [(cur, q)]) = keysR acc ++ [cur] := by
          simp [keysR]
        rw [this] at hcmem
        rcases List.mem_append.mp hcmem with h | h
        · exact hacc c (List.mem_cons_of_mem _ hm) h
        · exact hcur (List.mem_singleton.mp h ▸ hm)
      have hentry : toRateEntry bo bd base cur = some (cur, q) := by
        simp [toRateEntry, hr]
      rw [List.foldl_cons, hstep, ih (acc ++ [(cur, q)]) hnd2 hfresh,
        List.filterMap_cons, hentry, List.append_assoc, List.singleton_append]
    | error e =>
      have hstep : stepFun bo bd base acc cur = acc := by
        simp [stepFun, hr]
      have hentry : toRateEntry bo bd base cur = none := by
        simp [toRateEntry, hr]
      rw [List.foldl_cons, hstep, List.filterMap_cons, hentry,
        ih acc hnd2 fun c hm => hacc c (List.mem_cons_of_mem _ hm)]

theorem deriveLoop_false_err (bo : Option Row) (bd : Int) (base : String) :
    ∀ (ts : List String) (acc : List (String × ℚ)),
      (∀ c ∈ ts, ∀ e, rateOf bo bd base c = .error e → isConvErr e = true) →
      (∃ c ∈ ts, ∃ e, rateOf bo bd base c = .error e) →
      ∃ e, isConvErr e = true ∧ deriveLoop bo bd base false ts acc = .error e := by
  intro ts
  induction ts with
  | nil =>
    intro acc _ hex
    obtain ⟨c, hc, _⟩ := hex
    cases hc
  | cons cur rest ih =>
    intro acc hc hex
    cases hr : rateOf bo bd base cur with
    | error e =>
      have hce : isConvErr e = true := hc cur (List.mem_cons_self cur rest) e hr
      refine ⟨e, hce, ?_⟩
      simp [deriveLoop, hr, hce]
    | ok q =>
      simp only [deriveLoop, hr]
      refine ih _ (fun c hm e he => hc c (List.mem_cons_of_mem _ hm) e he) ?_
      obtain ⟨c, hm, e, he⟩ := hex
      rcases List.mem_cons.mp hm with h | h
      · rw [h, hr] at he
        cases he
      · exact ⟨c, h, e, he⟩

theorem deriveLoop_all_ok_eq (bo : Option Row) (bd : Int) (base : String) :
    ∀ (ts : List String) (acc : List (String × ℚ)),
      (∀ c ∈ ts, ∃ q, rateOf bo bd base c = .ok q) →
      deriveLoop bo bd base false ts acc = deriveLoop bo bd base true ts acc := by
  intro ts
  induction ts with
  | nil =>
    intro acc _
    rfl
  | cons cur rest ih =>
    intro acc hall
    obtain ⟨q, hq⟩ := hall cur (List.mem_cons_self cur rest)
    simp only [deriveLoop, hq]
    exact ih _ fun c hm => hall c (List.mem_cons_of_mem _ hm)

theorem deriveLoop_all_convErr (bo : Option Row) (bd : Int) (base : String) :
    ∀ (ts : List String) (acc : List (String × ℚ)),
      (∀ c ∈ ts, ∃ e, rateOf bo bd base c = .error e ∧ isConvErr e = true) →
      deriveLoop bo bd base true ts acc = .ok acc := by
  intro ts
  induction ts with
  | nil =>
    intro acc _
    rfl
  | cons cur rest ih =>
    intro acc hall
    obtain ⟨e, he, hce⟩ := hall cur (List.mem_cons_self cur rest)
    simp only [deriveLoop, he, hce, if_true]
    exact ih _ fun c hm => hall c (List.mem_cons_of_mem _ hm)

theorem deriveLoop_zeroDiv (bo : Option Row) (bd : Int) (base : String)
    (hden : numOf bo bd base = .ok 0) :
    ∀ (ts : List String) (acc : List (String × ℚ)),
      (∀ c ∈ ts, ∀ e, numOf bo bd c = .error e → isConvErr e = true) →
      (∃ c ∈ ts, ∃ q, numOf bo bd c = .ok q) →
      deriveLoop bo bd base true ts acc = .error .zeroDivisionError := by
  intro ts
  induction ts with
  | nil =>
    intro acc _ hex
    obtain ⟨c, hc, _⟩ := hex
    cases hc
  | cons cur rest ih =>
    intro acc hc hex
    cases hn : numOf bo bd cur with
    | ok q =>
      have hr : rateOf bo bd base cur = .error .zeroDivisionError := by
        simp [rateOf, hn, hden]
      simp [deriveLoop, hr, isConvErr]
    | error e =>
      have hce : isConvErr e = true := hc cur (List.mem_cons_self cur rest) e hn
      have hr : rateOf bo bd base cur = .error e := by
        simp [rateOf, hn]
      simp only [deriveLoop, hr, hce, if_true]
      refine ih _ (fun c hm e2 he => hc c (List.mem_cons_of_mem _ hm) e2 he) ?_
      obtain ⟨c, hm, q2, hq⟩ := hex
      rcases List.mem_cons.mp hm with h | h
      · rw [h, hn] at hq
        cases hq
      · exact ⟨c, h, q2, hq⟩

theorem keysR_deriveLoop (bo : Option Row) (bd : Int) (base : String) (coe : Bool) :
    ∀ (ts : List String) (acc : List (String × ℚ)) (m : List (String × ℚ)),
      deriveLoop bo bd base coe ts acc = .ok m →
      ∀ k, k ∈ keysR m → k ∈ keysR acc ∨ k ∈ ts := by
  intro ts
  induction ts with
  | nil =>
    intro acc m hm k hk
    have : acc = m := by
      injection hm
    exact Or.inl (this ▸ hk)
  | cons cur rest ih =>
    intro acc m hm k hk
    cases hr : rateOf bo bd base cur with
    | ok q =>
      simp only [deriveLoop, hr] at hm
      rcases ih _ m hm k hk with h | h
      · rcases mem_keysR_dictInsert acc cur q k h with h2 | h2
        · exact Or.inl h2
        · exact Or.inr (h2 ▸ List.mem_cons_self cur rest)
      · exact Or.inr (List.mem_cons_of_mem _ h)
    | error e =>
      simp only [deriveLoop, hr] at hm
      by_cases hce : isConvErr e
      · rw [if_pos hce] at hm
        cases coe
        · cases hm
        · rcases ih _ m hm k hk with h | h
          · exact Or.inl h
          · exact Or.inr (List.mem_cons_of_mem _ h)
      · rw [if_neg hce] at hm
        cases hm

theorem lookup_eq_none_of_not_mem :
    ∀ (m : List (String × ℚ)) (k : String), k ∉ keysR m → m.lookup k = none := by
  intro m
  induction m with
  | nil =>
    intro k _
    rfl
  | cons p t ih =>
    intro k hk
    obtain ⟨k1, v1⟩ := p
    have h1 : k ≠ k1 := by
      intro hh
      exact hk (hh ▸ List.mem_cons_self k1 (keysR t))
    have h2 : k ∉ keysR t := fun hh => hk (List.mem_cons_of_mem _ hh)
    simp only [List.lookup, beq_eq_false_iff_ne.mpr h1]
    exact ih k h2

/-! ### Unfolding the resolver and shared concrete tables -/

theorem get_exchange_rates_eq (table : List Row) (base : String)
    (tcs : Option (List String)) (onDate w : Int) (coe : Bool) :
    get_exchange_rates table base tcs onDate w coe =
      if (findBest table onDate).2 < w
      then postMatch (findBest table onDate).1 (findBest table onDate).2 base tcs coe
      else .error (.runtimeError base onDate w) := rfl

/-- The table of the spec example: one record for 2023-10-01 (day number 0)
with USD and CAD columns. -/
def table1 : List Row := [⟨"2023-10-01", 0, [("USD", "1.053"), ("CAD", "1.4335")]⟩]

/-! ### Claims -/

/-- Claim C1: if some record's date equals `onDate` and `withinDays` is
positive, the result is derived from the first such record in scan order
(the scan short-circuits there), hence is deterministic and the same for
every positive `withinDays`. -/
theorem c1_exact_date_short_circuit (table : List Row) (base : String)
    (tcs : Option (List String)) (onDate w w2 : Int) (coe : Bool) (r : Row)
    (hfind : table.find? (fun x => x.date == onDate) = some r)
    (hw : 0 < w) (hw2 : 0 < w2) :
    get_exchange_rates table base tcs onDate w coe = postMatch (some r) 0 base tcs coe ∧
    get_exchange_rates table base tcs onDate w coe =
      get_exchange_rates table base tcs onDate w2 coe := by
  have hfb : findBest table onDate = (some r, 0) :=
    findBestAux_exact onDate table none maxsize r (by decide) hfind
  constructor
  · rw [get_exchange_rates_eq, hfb]
    simp [hw]
  · rw [get_exchange_rates_eq, get_exchange_rates_eq, hfb]
    simp [hw, hw2]

/-- Witness for C1 at the example table: exact match on day 0, tolerances 4
and 9 give the same result, derived from the matched record. -/
theorem c1_exact_date_short_circuit_witness :
    (table1.find? (fun x => x.date == (0 : Int)) =
        some ⟨"2023-10-01", 0, [("USD", "1.053"), ("CAD", "1.4335")]⟩ ∧
      (0 : Int) < 4 ∧ (0 : Int) < 9) ∧
    (get_exchange_rates table1 "USD" (some ["CAD"]) 0 4 true =
        postMatch (some ⟨"2023-10-01", 0, [("USD", "1.053"), ("CAD", "1.4335")]⟩) 0
          "USD" (some ["CAD"]) true ∧
      get_exchange_rates table1 "USD" (some ["CAD"]) 0 4 true =
        get_exchange_rates table1 "USD" (some ["CAD"]) 0 9 true) :=
  ⟨⟨by decide, by decide, by decide⟩,
    c1_exact_date_short_circuit table1 "USD" (some ["CAD"]) 0 4 9 true
      ⟨"2023-10-01", 0, [("USD", "1.053"), ("CAD", "1.4335")]⟩
      (by decide) (by decide) (by decide)⟩

/-- Claim C2 (amended): provided `withinDays` does not exceed the sentinel
`sys.maxsize`, the call fails with the no-rates `RuntimeError` (identifying
`baseCurrency`, `onDate` and `withinDays`) exactly when no record lies
strictly within `withinDays` of `onDate` (in particular when the table is
empty); the criterion does not involve `continue_on_error`, a record at
distance exactly `withinDays` is rejected, one at `withinDays - 1` accepted.
For `withinDays > sys.maxsize` the sentinel distance itself passes the
acceptance test and an empty table does not fail, see the counterexample. -/
theorem c2_no_rates_tolerance (table : List Row) (base : String)
    (tcs : Option (List String)) (onDate w : Int) (coe : Bool)
    (hw : w ≤ maxsize) :
    get_exchange_rates table base tcs onDate w coe =
        .error (.runtimeError base onDate w) ↔
      ∀ r ∈ table, ¬(distOf onDate r < w) := by
  rw [get_exchange_rates_eq]
  by_cases h : (findBest table onDate).2 < w
  · rw [if_pos h]
    simp only [postMatch]
    constructor
    · intro hcontra
      exact absurd hcontra (deriveLoop_ne_runtime _ _ _ _ _ _ _ _ _)
    · intro hall
      exfalso
      have hwle : w ≤ (findBest table onDate).2 := by
        rw [findBest_snd]
        refine le_foldl_min _ _ _ hw ?_
        intro x hx
        obtain ⟨r2, hr2, rfl⟩ := List.mem_map.mp hx
        exact le_of_not_lt (hall r2 hr2)
      exact absurd h (not_lt.mpr hwle)
  · rw [if_neg h]
    constructor
    · intro _ r hr hlt
      exact h (lt_of_le_of_lt (findBest_snd_le table onDate r hr) hlt)
    · intro _
      rfl

/-- Witness for C2 (amended) at the sharp boundary: a single record exactly
4 days away is rejected with tolerance 4. -/
theorem c2_no_rates_tolerance_witness :
    ((4 : Int) ≤ maxsize) ∧
    (get_exchange_rates [(⟨"2023-10-05", 4, [("USD", "1.053")]⟩ : Row)] "USD"
          (some ["USD"]) 0 4 true =
        .error (.runtimeError "USD" 0 4) ↔
      ∀ r ∈ [(⟨"2023-10-05", 4, [("USD", "1.053")]⟩ : Row)], ¬(distOf 0 r < 4)) :=
  ⟨by decide,
    c2_no_rates_tolerance [⟨"2023-10-05", 4, [("USD", "1.053")]⟩] "USD"
      (some ["USD"]) 0 4 true (by decide)⟩

/-- Counterexample to C2 as stated: with an empty table and
`withinDays = 2 ^ 63 > sys.maxsize` the sentinel passes the acceptance
test, no `RuntimeError` is raised even in strict mode, and the call even
returns a rate for the injected reference currency. -/
theorem c2_no_rates_tolerance_counterexample :
    get_exchange_rates [] "EUR" (some ["EUR"]) 0 9223372036854775808 false =
      .ok [("EUR", 1)] ∧
    get_exchange_rates [] "EUR" (some ["EUR"]) 0 9223372036854775808 false ≠
      .error (.runtimeError "EUR" 0 9223372036854775808) :=
  ⟨by decide, by decide⟩

/-- Claim C4: the final distance is minimal over all records, and the
matched record is the first one in iteration order attaining it — a later
record with an equal distance never replaces the running best. -/
theorem c4_tie_break (table : List Row) (onDate : Int)
    (h : (findBest table onDate).2 < maxsize) :
    (∀ r ∈ table, (findBest table onDate).2 ≤ distOf onDate r) ∧
    (findBest table onDate).1 =
      table.find? (fun r => distOf onDate r == (findBest table onDate).2) := by
  refine ⟨findBest_snd_le table onDate, ?_⟩
  have hfst := findBestAux_fst onDate table none maxsize (by decide)
  simp only [findBest] at h ⊢
  rw [hfst, if_pos h]

/-- Witness for C4: two records both 3 days from the query date; the first
one in table order is matched. -/
theorem c4_tie_break_witness :
    ((findBest [(⟨"2023-09-28", -3, [("USD", "1.0")]⟩ : Row),
        ⟨"2023-10-04", 3, [("USD", "2.0")]⟩] 0).2 < maxsize) ∧
    ((∀ r ∈ [(⟨"2023-09-28", -3, [("USD", "1.0")]⟩ : Row),
          ⟨"2023-10-04", 3, [("USD", "2.0")]⟩],
        (findBest [(⟨"2023-09-28", -3, [("USD", "1.0")]⟩ : Row),
          ⟨"2023-10-04", 3, [("USD", "2.0")]⟩] 0).2 ≤ distOf 0 r) ∧
      (findBest [(⟨"2023-09-28", -3, [("USD", "1.0")]⟩ : Row),
          ⟨"2023-10-04", 3, [("USD", "2.0")]⟩] 0).1 =
        [(⟨"2023-09-28", -3, [("USD", "1.0")]⟩ : Row),
          ⟨"2023-10-04", 3, [("USD", "2.0")]⟩].find?
          (fun r => distOf 0 r ==
            (findBest [(⟨"2023-09-28", -3, [("USD", "1.0")]⟩ : Row),
              ⟨"2023-10-04", 3, [("USD", "2.0")]⟩] 0).2)) ∧
    (findBest [(⟨"2023-09-28", -3, [("USD", "1.0")]⟩ : Row),
        ⟨"2023-10-04", 3, [("USD", "2.0")]⟩] 0).1 =
      some ⟨"2023-09-28", -3, [("USD", "1.0")]⟩ :=
  ⟨by decide,
    c4_tie_break [⟨"2023-09-28", -3, [("USD", "1.0")]⟩,
      ⟨"2023-10-04", 3, [("USD", "2.0")]⟩] 0 (by decide),
    by decide⟩

/-- Claim C3: when every per-currency failure among the requested targets is
a conversion failure (non-numeric value or missing key, the only kinds the
loop catches), tolerant mode returns exactly the successfully derived
entries, silently omitting the failures; strict mode aborts with the
conversion error as soon as any target fails; and with no failures the two
modes agree. -/
theorem c3_per_currency_policy (table : List Row) (base : String)
    (ts : List String) (onDate w : Int)
    (hmatch : (findBest table onDate).2 < w)
    (hnd : ts.Nodup)
    (hc : ∀ c ∈ ts, ∀ e,
      rateOf (findBest table onDate).1 (findBest table onDate).2 base c = .error e →
      isConvErr e = true) :
    get_exchange_rates table base (some ts) onDate w true =
      .ok (ts.filterMap
        (toRateEntry (findBest table onDate).1 (findBest table onDate).2 base)) ∧
    ((∃ c ∈ ts, ∃ e,
        rateOf (findBest table onDate).1 (findBest table onDate).2 base c =
          .error e) →
      ∃ e, isConvErr e = true ∧
        get_exchange_rates table base (some ts) onDate w false = .error e) ∧
    ((∀ c ∈ ts, ∃ q,
        rateOf (findBest table onDate).1 (findBest table onDate).2 base c = .ok q) →
      get_exchange_rates table base (some ts) onDate w false =
        get_exchange_rates table base (some ts) onDate w true) := by
  have hunfold : ∀ coe, get_exchange_rates table base (some ts) onDate w coe =
      deriveLoop (findBest table onDate).1 (findBest table onDate).2 base coe ts [] := by
    intro coe
    rw [get_exchange_rates_eq, if_pos hmatch]
    rfl
  refine ⟨?_, ?_, ?_⟩
  · rw [hunfold, deriveLoop_true_ok _ _ _ ts [] hc,
      foldl_step_filterMap _ _ _ ts [] hnd (by intro c _ hk; simp [keysR] at hk)]
    simp
  · intro hex
    obtain ⟨e, hce, hde⟩ := deriveLoop_false_err _ _ _ ts [] hc hex
    exact ⟨e, hce, by rw [hunfold]; exact hde⟩
  · intro hall
    rw [hunfold, hunfold]
    exact deriveLoop_all_ok_eq _ _ _ ts [] hall

/-- Witness for C3 at the spec example: base USD with targets USD and the
absent XXX; tolerant mode returns exactly the USD self-rate 1.0, strict
mode raises the `KeyError` identifying XXX. -/
theorem c3_per_currency_policy_witness :
    ((findBest table1 0).2 < 4 ∧ (["USD", "XXX"] : List String).Nodup ∧
      (∀ c ∈ (["USD", "XXX"] : List String), ∀ e,
        rateOf (findBest table1 0).1 (findBest table1 0).2 "USD" c = .error e →
        isConvErr e = true)) ∧
    (get_exchange_rates table1 "USD" (some ["USD", "XXX"]) 0 4 true =
        .ok ((["USD", "XXX"] : List String).filterMap
          (toRateEntry (findBest table1 0).1 (findBest table1 0).2 "USD")) ∧
      ((∃ c ∈ (["USD", "XXX"] : List String), ∃ e,
          rateOf (findBest table1 0).1 (findBest table1 0).2 "USD" c = .error e) →
        ∃ e, isConvErr e = true ∧
          get_exchange_rates table1 "USD" (some ["USD", "XXX"]) 0 4 false =
            .error e) ∧
      ((∀ c ∈ (["USD", "XXX"] : List String), ∃ q,
          rateOf (findBest table1 0).1 (findBest table1 0).2 "USD" c = .ok q) →
        get_exchange_rates table1 "USD" (some ["USD", "XXX"]) 0 4 false =
          get_exchange_rates table1 "USD" (some ["USD", "XXX"]) 0 4 true)) ∧
    ((["USD", "XXX"] : List String).filterMap
        (toRateEntry (findBest table1 0).1 (findBest table1 0).2 "USD") =
      [("USD", 1)] ∧
    get_exchange_rates table1 "USD" (some ["USD", "XXX"]) 0 4 false =
      .error (.keyError "XXX")) := by
  have hc : ∀ c ∈ (["USD", "XXX"] : List String), ∀ e,
      rateOf (findBest table1 0).1 (findBest table1 0).2 "USD" c = .error e →
      isConvErr e = true := by
    intro c hmem e he
    rcases List.mem_cons.mp hmem with h | h
    · subst h
      rw [show rateOf (findBest table1 0).1 (findBest table1 0).2 "USD" "USD" =
        .ok 1 by decide] at he
      cases he
    · rcases List.mem_cons.mp h with h2 | h2
      · subst h2
        rw [show rateOf (findBest table1 0).1 (findBest table1 0).2 "USD" "XXX" =
          .error (.keyError "XXX") by decide] at he
        injection he with h3
        rw [← h3]
        rfl
      · cases h2
  exact ⟨⟨by decide, by decide, hc⟩,
    c3_per_currency_policy table1 "USD" ["USD", "XXX"] 0 4 (by decide) (by decide) hc,
    by decide, by decide⟩

/-- Counterexample to C5 as stated: for a currency absent from the matched
record the self-rate call returns the empty mapping (tolerant mode), not
the mapping to 1.0. -/
theorem c5_self_rate_counterexample :
    get_exchange_rates table1 "XXX" (some ["XXX"]) 0 4 true = .ok [] ∧
    get_exchange_rates table1 "XXX" (some ["XXX"]) 0 4 true ≠
      .ok [("XXX", 1)] :=
  ⟨by decide, by decide⟩

/-- Claim C5 (amended): the self-rate is exactly 1.0 whenever a record is
matched and the currency's value in the matched row dict converts to a
nonzero float (which covers the injected reference currency EUR); for a
currency that is absent, non-numeric, or zero the call instead omits the
entry, raises, or divides by zero, see the counterexample. -/
theorem c5_self_rate (table : List Row) (cur : String) (onDate w : Int)
    (coe : Bool) (x : ℚ)
    (hmatch : (findBest table onDate).2 < w)
    (hnum : numOf (findBest table onDate).1 (findBest table onDate).2 cur = .ok x)
    (hx : x ≠ 0) :
    get_exchange_rates table cur (some [cur]) onDate w coe = .ok [(cur, 1)] := by
  rw [get_exchange_rates_eq, if_pos hmatch]
  have hr : rateOf (findBest table onDate).1 (findBest table onDate).2 cur cur =
      .ok 1 := by
    simp only [rateOf, hnum, if_neg hx, fdiv_self hx]
  simp only [postMatch, resolveTargets, deriveLoop, hr, dictInsert]

/-- Witness for C5 at the spec example: the USD self-rate is 1.0. -/
theorem c5_self_rate_witness :
    ((findBest table1 0).2 < 4 ∧
      numOf (findBest table1 0).1 (findBest table1 0).2 "USD" =
        .ok (roundDouble (Rat.divInt 1053 1000)) ∧
      roundDouble (Rat.divInt 1053 1000) ≠ 0) ∧
    get_exchange_rates table1 "USD" (some ["USD"]) 0 4 true = .ok [("USD", 1)] :=
  ⟨⟨by decide, by decide, by decide⟩,
    c5_self_rate table1 "USD" 0 4 true (roundDouble (Rat.divInt 1053 1000))
      (by decide) (by decide) (by decide)⟩

/-- Counterexample to C6 as stated: with rates AAA = 1 and BBB = 49 on the
matched date, the rate of BBB under base AAA is the double 49, while the
rate of AAA under base BBB is the double nearest 1/49; 49 is not the exact
reciprocal of the latter, nor its Python float reciprocal (which is
49.000000000000007): double rounding breaks exact cross-rate inversion. -/
theorem c6_cross_rate_counterexample :
    get_exchange_rates [(⟨"2023-10-01", 0, [("AAA", "1"), ("BBB", "49")]⟩ : Row)]
        "AAA" (some ["BBB"]) 0 4 true = .ok [("BBB", 49)] ∧
    get_exchange_rates [(⟨"2023-10-01", 0, [("AAA", "1"), ("BBB", "49")]⟩ : Row)]
        "BBB" (some ["AAA"]) 0 4 true =
      .ok [("AAA", Rat.divInt 5882252574524729 288230376151711744)] ∧
    (49 : ℚ) ≠ ratDiv 1 (Rat.divInt 5882252574524729 288230376151711744) ∧
    fdiv 1 (Rat.divInt 5882252574524729 288230376151711744) ≠ 49 :=
  ⟨by decide, by decide, by decide, by decide⟩

/-- Claim C6 (amended): for two currencies whose values in the matched
record convert to nonzero floats `a` and `b`, the two returned rates are
the correctly rounded doubles of the exact ratios `b / a` and `a / b`, and
these exact ratios are reciprocals of each other; the returned doubles
themselves may fail exact inversion by one rounding, see the
counterexample. -/
theorem c6_cross_rate (table : List Row) (A B : String) (onDate w : Int)
    (coe : Bool) (a b : ℚ)
    (hmatch : (findBest table onDate).2 < w)
    (ha : numOf (findBest table onDate).1 (findBest table onDate).2 A = .ok a)
    (hb : numOf (findBest table onDate).1 (findBest table onDate).2 B = .ok b)
    (ha0 : a ≠ 0) (hb0 : b ≠ 0) :
    get_exchange_rates table A (some [B]) onDate w coe =
      .ok [(B, roundDouble (b / a))] ∧
    get_exchange_rates table B (some [A]) onDate w coe =
      .ok [(A, roundDouble (a / b))] ∧
    (b / a) * (a / b) = 1 := by
  refine ⟨?_, ?_, ?_⟩
  · rw [get_exchange_rates_eq, if_pos hmatch]
    have hr : rateOf (findBest table onDate).1 (findBest table onDate).2 A B =
        .ok (roundDouble (b / a)) := by
      simp only [rateOf, hb, ha, if_neg ha0, fdiv, ratDiv_eq_div]
    simp only [postMatch, resolveTargets, deriveLoop, hr, dictInsert]
  · rw [get_exchange_rates_eq, if_pos hmatch]
    have hr : rateOf (findBest table onDate).1 (findBest table onDate).2 B A =
        .ok (roundDouble (a / b)) := by
      simp only [rateOf, ha, hb, if_neg hb0, fdiv, ratDiv_eq_div]
    simp only [postMatch, resolveTargets, deriveLoop, hr, dictInsert]
  · rw [div_mul_div_comm, mul_comm b a, div_self (mul_ne_zero ha0 hb0)]

/-- Witness for C6 at the spec example with USD and CAD. -/
theorem c6_cross_rate_witness :
    ((findBest table1 0).2 < 4 ∧
      numOf (findBest table1 0).1 (findBest table1 0).2 "USD" =
        .ok (roundDouble (Rat.divInt 1053 1000)) ∧
      numOf (findBest table1 0).1 (findBest table1 0).2 "CAD" =
        .ok (roundDouble (Rat.divInt 14335 10000)) ∧
      roundDouble (Rat.divInt 1053 1000) ≠ 0 ∧
      roundDouble (Rat.divInt 14335 10000) ≠ 0) ∧
    (get_exchange_rates table1 "USD" (some ["CAD"]) 0 4 true =
        .ok [("CAD", roundDouble (roundDouble (Rat.divInt 14335 10000) /
          roundDouble (Rat.divInt 1053 1000)))] ∧
      get_exchange_rates table1 "CAD" (some ["USD"]) 0 4 true =
        .ok [("USD", roundDouble (roundDouble (Rat.divInt 1053 1000) /
          roundDouble (Rat.divInt 14335 10000)))] ∧
      (roundDouble (Rat.divInt 14335 10000) / roundDouble (Rat.divInt 1053 1000)) *
        (roundDouble (Rat.divInt 1053 1000) / roundDouble (Rat.divInt 14335 10000)) =
        1) :=
  ⟨⟨by decide, by decide, by decide, by decide, by decide⟩,
    c6_cross_rate table1 "USD" "CAD" 0 4 true
      (roundDouble (Rat.divInt 1053 1000)) (roundDouble (Rat.divInt 14335 10000))
      (by decide) (by decide) (by decide) (by decide) (by decide)⟩

/-- Claim C7: on the example table (record 2023-10-01 with USD 1.053 and
CAD 1.4335), resolving base USD with targets EUR, CAD, USD at the exact
date and tolerance 4 yields exactly the reference currency injected at
1.0/1.053, CAD at 1.4335/1.053 and USD at 1.0 — the two quotients being
precisely the binary64 doubles whose shortest decimal representations are
0.9496676163342831 and 1.3613485280151947, the values the claim lists
(`Rat.divInt a (10 ^ 16)` below is that decimal literal, and `roundDouble`
maps it to the double it denotes in the code). -/
theorem c7_reference_injection_example :
    get_exchange_rates table1 "USD" (some ["EUR", "CAD", "USD"]) 0 4 true =
      .ok [("EUR", roundDouble (Rat.divInt 9496676163342831 (10 ^ 16))),
        ("CAD", roundDouble (Rat.divInt 13613485280151947 (10 ^ 16))),
        ("USD", 1)] := by
  decide

/-- Any failure of the numerator lookup-and-convert step for a key other
than `Date` is one of the two caught conversion errors: the only dict value
whose float conversion raises an uncaught `TypeError` is the date object
stored under `Date`. -/
theorem numOf_convErr (bo : Option Row) (bd : Int) (c : String)
    (hc : c ≠ "Date") :
    ∀ e, numOf bo bd c = .error e → isConvErr e = true := by
  intro e he
  simp only [numOf] at he
  cases hg : getItem bo bd c with
  | none =>
    rw [hg] at he
    injection he with h2
    rw [← h2]
    rfl
  | some v =>
    rw [hg] at he
    cases v with
    | vstr s =>
      simp only [pyFloat] at he
      cases hp : parseFloat s
      · rw [hp] at he
        injection he with h2
        rw [← h2]
        rfl
      · rw [hp] at he
        cases he
    | vfloat q => cases he
    | vdate d =>
      exfalso
      cases bo with
      | some r =>
        simp only [getItem] at hg
        by_cases hce : c = "EUR"
        · rw [if_pos hce] at hg
          simp at hg
        · rw [if_neg hce, if_neg hc] at hg
          by_cases h2 : c = "Date_Str"
          · rw [if_pos h2] at hg
            simp at hg
          · rw [if_neg h2] at hg
            by_cases h3 : c = "Within_Days"
            · rw [if_pos h3] at hg
              simp at hg
            · rw [if_neg h3] at hg
              cases hl : r.rates.lookup c
              · rw [hl] at hg
                simp at hg
              · rw [hl] at hg
                simp at hg
      | none =>
        simp only [getItem] at hg
        by_cases hce : c = "EUR"
        · rw [if_pos hce] at hg
          simp at hg
        · rw [if_neg hce] at hg
          by_cases h3 : c = "Within_Days"
          · rw [if_pos h3] at hg
            simp at hg
          · rw [if_neg h3] at hg
            simp at hg
    | vint n => cases he

/-- Claim C8: when the base currency is absent from the matched row dict
(so in particular it is not the injected reference currency EUR), the
shared denominator makes every requested target currency fail its lookup,
and in tolerant mode the call returns the empty mapping instead of a
dedicated bad-base-currency error. (The targets are required not to be the
bookkeeping key `Date`, whose date-object value would raise an uncaught
`TypeError` instead.) -/
theorem c8_bad_base_degradation (table : List Row) (base : String)
    (ts : List String) (onDate w : Int)
    (hmatch : (findBest table onDate).2 < w)
    (hbase : getItem (findBest table onDate).1 (findBest table onDate).2 base = none)
    (hts : ∀ c ∈ ts, c ≠ "Date") :
    get_exchange_rates table base (some ts) onDate w true = .ok [] := by
  rw [get_exchange_rates_eq, if_pos hmatch]
  simp only [postMatch, resolveTargets]
  apply deriveLoop_all_convErr
  intro c hm
  have hnb : numOf (findBest table onDate).1 (findBest table onDate).2 base =
      .error (.keyError base) := by
    simp [numOf, hbase]
  cases hn : numOf (findBest table onDate).1 (findBest table onDate).2 c with
  | error e =>
    refine ⟨e, ?_, numOf_convErr _ _ c (hts c hm) e hn⟩
    simp [rateOf, hn]
  | ok q =>
    refine ⟨.keyError base, ?_, rfl⟩
    simp [rateOf, hn, hnb]

/-- Witness for C8: base GBP is absent from the example record; all three
targets (including the injected EUR) fail on the shared denominator and the
result is the empty mapping. -/
theorem c8_bad_base_degradation_witness :
    ((findBest table1 0).2 < 4 ∧
      getItem (findBest table1 0).1 (findBest table1 0).2 "GBP" = none ∧
      (∀ c ∈ (["USD", "CAD", "EUR"] : List String), c ≠ "Date")) ∧
    get_exchange_rates table1 "GBP" (some ["USD", "CAD", "EUR"]) 0 4 true =
      .ok [] :=
  ⟨⟨by decide, by decide, by decide⟩,
    c8_bad_base_degradation table1 "GBP" ["USD", "CAD", "EUR"] 0 4
      (by decide) (by decide) (by decide)⟩

/-- Claim C9 (implicit): if the matched record's value for the base
currency converts to the float 0, then as soon as one requested currency
gets past its own numerator conversion the division raises
`ZeroDivisionError`, which is outside the two caught exception classes and
aborts the whole call even in tolerant mode. (Targets failing their own
numerator with a caught error are skipped first, so at least one convertible
target is required for the division to be reached.) -/
theorem c9_zero_base_division_error (table : List Row) (base : String)
    (ts : List String) (onDate w : Int)
    (hmatch : (findBest table onDate).2 < w)
    (hden : numOf (findBest table onDate).1 (findBest table onDate).2 base = .ok 0)
    (hts : ∀ c ∈ ts, ∀ e,
      numOf (findBest table onDate).1 (findBest table onDate).2 c = .error e →
      isConvErr e = true)
    (hex : ∃ c ∈ ts, ∃ q,
      numOf (findBest table onDate).1 (findBest table onDate).2 c = .ok q) :
    get_exchange_rates table base (some ts) onDate w true =
      .error .zeroDivisionError := by
  rw [get_exchange_rates_eq, if_pos hmatch]
  simp only [postMatch, resolveTargets]
  exact deriveLoop_zeroDiv _ _ _ hden ts [] hts hex

/-- Witness for C9: a record carrying USD = 0; resolving CAD against base
USD raises `ZeroDivisionError` despite tolerant mode. -/
theorem c9_zero_base_division_error_witness :
    ((findBest [(⟨"2023-10-01", 0, [("USD", "0"), ("CAD", "1.4335")]⟩ : Row)] 0).2 <
        4 ∧
      numOf (findBest [(⟨"2023-10-01", 0, [("USD", "0"), ("CAD", "1.4335")]⟩ : Row)]
          0).1
        (findBest [(⟨"2023-10-01", 0, [("USD", "0"), ("CAD", "1.4335")]⟩ : Row)] 0).2
        "USD" = .ok 0) ∧
    get_exchange_rates [(⟨"2023-10-01", 0, [("USD", "0"), ("CAD", "1.4335")]⟩ : Row)]
        "USD" (some ["CAD"]) 0 4 true = .error .zeroDivisionError := by
  have hts : ∀ c ∈ (["CAD"] : List String), ∀ e,
      numOf (findBest [(⟨"2023-10-01", 0, [("USD", "0"), ("CAD", "1.4335")]⟩ : Row)]
          0).1
        (findBest [(⟨"2023-10-01", 0, [("USD", "0"), ("CAD", "1.4335")]⟩ : Row)] 0).2
        c = .error e → isConvErr e = true := by
    intro c hmem e he
    rcases List.mem_cons.mp hmem with h | h
    · subst h
      rw [show numOf
          (findBest [(⟨"2023-10-01", 0, [("USD", "0"), ("CAD", "1.4335")]⟩ : Row)]
            0).1
          (findBest [(⟨"2023-10-01", 0, [("USD", "0"), ("CAD", "1.4335")]⟩ : Row)]
            0).2 "CAD" =
        .ok (roundDouble (Rat.divInt 14335 10000)) by decide] at he
      cases he
    · cases h
  exact ⟨⟨by decide, by decide⟩,
    c9_zero_base_division_error
      [⟨"2023-10-01", 0, [("USD", "0"), ("CAD", "1.4335")]⟩] "USD" ["CAD"] 0 4
      (by decide) (by decide) hts
      ⟨"CAD", List.mem_cons_self "CAD" [],
        roundDouble (Rat.divInt 14335 10000), by decide⟩⟩

/-- Claim C10 (implicit): in resolve-all mode the effective target set is
taken from the matched record's keys before the reference currency is
injected, so if no record carries an explicit EUR column the returned
mapping has no EUR entry. -/
theorem c10_resolve_all_no_eur (table : List Row) (base : String)
    (onDate w : Int) (coe : Bool) (m : List (String × ℚ))
    (heur : ∀ r ∈ table, ∀ p ∈ r.rates, p.1 ≠ "EUR")
    (hok : get_exchange_rates table base none onDate w coe = .ok m) :
    m.lookup "EUR" = none := by
  apply lookup_eq_none_of_not_mem
  intro hmem
  rw [get_exchange_rates_eq] at hok
  by_cases h : (findBest table onDate).2 < w
  · rw [if_pos h] at hok
    simp only [postMatch] at hok
    rcases keysR_deriveLoop _ _ _ _ _ _ _ hok "EUR" hmem with h2 | h2
    · simp [keysR] at h2
    · simp only [resolveTargets] at h2
      cases hbo : (findBest table onDate).1 with
      | none =>
        rw [hbo] at h2
        cases h2
      | some r =>
        rw [hbo] at h2
        have hrmem : r ∈ table := by
          rcases findBestAux_mem onDate table none maxsize r hbo with h3 | h3
          · cases h3
          · exact h3
        simp only [keysOfRow] at h2
        obtain ⟨p, hp, hp2⟩ := List.mem_map.mp (List.mem_of_mem_filter h2)
        exact heur r hrmem p hp hp2
  · rw [if_neg h] at hok
    cases hok

/-- Witness for C10 at the example table (no EUR column): the resolve-all
result contains USD and CAD but no EUR entry. -/
theorem c10_resolve_all_no_eur_witness :
    ((∀ r ∈ table1, ∀ p ∈ r.rates, p.1 ≠ "EUR") ∧
      get_exchange_rates table1 "USD" none 0 4 true =
        .ok [("USD", 1),
          ("CAD", fdiv (roundDouble (Rat.divInt 14335 10000))
            (roundDouble (Rat.divInt 1053 1000)))]) ∧
    ([("USD", (1 : ℚ)),
        ("CAD", fdiv (roundDouble (Rat.divInt 14335 10000))
          (roundDouble (Rat.divInt 1053 1000)))] : List (String × ℚ)).lookup "EUR" =
      none :=
  ⟨⟨by decide, by decide⟩,
    c10_resolve_all_no_eur table1 "USD" 0 4 true
      [("USD", 1),
        ("CAD", fdiv (roundDouble (Rat.divInt 14335 10000))
          (roundDouble (Rat.divInt 1053 1000)))]
      (by decide) (by decide)⟩

end ExchangeRates
